import Mathlib

/-!
Shallow embedding of `lc.py`, an untyped lambda-calculus parser and
substitution-based beta-reducer with a global table of named expressions.

Python classes `Var`, `Lambda`, `App` become one inductive type `Expr`;
`Lambda.param` is stored in the source as a `Var` node whose only field is its
name, so it is embedded directly as the parameter's name string.  The global
dict `context` becomes an explicit association list passed to the functions
that read it.  The unbounded fixed-point loop of `interpret` becomes a
fuel-indexed iteration `interpret_fuel` (`none` = the loop has not yet reached
a fixed point within `fuel` iterations) together with the proposition
`InterpretsTo` (`interpret` terminates and returns the given value).
-/

namespace LC

/-- The three-variant expression model of `lc.py` (`Var`, `Lambda`, `App`). -/
inductive Expr where
  | Var (name : String)
  | Lambda (param : String) (body : Expr)
  | App (func : Expr) (arg : Expr)
deriving DecidableEq, Repr

/-- The structural equality implemented by the `__eq__` methods of `Var`,
`Lambda` and `App`: same variant and recursively equal fields; a `Lambda`
parameter (a `Var` node in the source) compares by its name. -/
def exprEq : Expr → Expr → Bool
  | .Var n, .Var m => n = m
  | .Lambda p b, .Lambda q c => p = q && exprEq b c
  | .App f a, .App g b => exprEq f g && exprEq a b
  | _, _ => false

/-- The global `context` dict (name → expression); embedded as an association
list read through `List.lookup`, which returns the most recent binding. -/
abbrev Ctx := List (String × Expr)

/-- `add_to_context(name, expr)`: `context[name] = expr`.  Consing the new pair
gives the same lookup behaviour as the dict assignment (the newest binding for
a name wins). -/
def add_to_context (name : String) (expr : Expr) (ctx : Ctx) : Ctx :=
  (name, expr) :: ctx

/-- `alpha_rename(expr, existing_vars)` from the source: renames a variable or
a binder whose name is in `existing_vars` by appending `"_renamed"`, and on a
`Lambda` recurses with the (possibly renamed) parameter name appended. -/
def alpha_rename (expr : Expr) (existing_vars : List String) : Expr :=
  match expr with
  | .Var name =>
      if name ∈ existing_vars then .Var (name ++ "_renamed") else .Var name
  | .Lambda param body =>
      let new_param_name := if param ∈ existing_vars then param ++ "_renamed" else param
      .Lambda new_param_name (alpha_rename body (existing_vars ++ [new_param_name]))
  | .App func arg =>
      .App (alpha_rename func existing_vars) (alpha_rename arg existing_vars)

/-- `substitute_named(expr, name, value)` from the source.  Defined in `lc.py`
but never called by `beta_reduce`, `interpret` or any other function. -/
def substitute_named (expr : Expr) (name : String) (value : Expr) : Expr :=
  match expr with
  | .Var n => if n = name then alpha_rename value [name] else .Var n
  | .Lambda param body =>
      if param = name then .Lambda param body
      else .Lambda param (substitute_named body name value)
  | .App func arg =>
      .App (substitute_named func name value) (substitute_named arg name value)

/-- `substitute(expr, var, value)` from the source; `var` is a `Var` node used
only through `var.name`, so it is embedded as the name string. -/
def substitute (expr : Expr) (var : String) (value : Expr) : Expr :=
  match expr with
  | .Var n => if n = var then value else .Var n
  | .Lambda param body =>
      if param = var then .Lambda param body
      else .Lambda param (substitute body var value)
  | .App func arg =>
      .App (substitute func var value) (substitute arg var value)

/-- `beta_reduce(expr)` from the source, with the global `context` made an
explicit argument: a `Var` whose name is in the context is replaced by the
stored expression verbatim; an application of a `Lambda` is beta-reduced via
`substitute`; otherwise the step recurses into subterms. -/
def beta_reduce (ctx : Ctx) (expr : Expr) : Expr :=
  match expr with
  | .Var name =>
      match ctx.lookup name with
      | some e => e
      | none => .Var name
  | .App func arg =>
      match func with
      | .Lambda param body => substitute body param arg
      | _ => .App (beta_reduce ctx func) (beta_reduce ctx arg)
  | .Lambda param body => .Lambda param (beta_reduce ctx body)

/-- The `while expr != prev_expr` loop of `interpret`, indexed by fuel:
`some e` means the loop exited (a `beta_reduce` step returned an expression
`__eq__`-equal to its input) and `interpret` returned `e`; `none` means the
loop was still running after `fuel` iterations. -/
def interpret_fuel (ctx : Ctx) : Nat → Expr → Option Expr
  | 0, _ => none
  | fuel + 1, expr =>
      let next := beta_reduce ctx expr
      if exprEq next expr then some expr else interpret_fuel ctx fuel next

/-- `interpret ctx e` terminates and returns `v`. -/
def InterpretsTo (ctx : Ctx) (e v : Expr) : Prop :=
  ∃ fuel, interpret_fuel ctx fuel e = some v

/-- A token of `tokenize`: `(text, start offset, end offset)`, offsets counted
in code points as Python string indices are. -/
abbrev Token := String × Nat × Nat

/-- The whitespace class `\s` of the source regex on the ASCII range
(space, tab, newline, carriage return, vertical tab, form feed).  Other
Unicode whitespace code points, which Python's `\s` also matches, are not
modelled; no claim involves them. -/
def pyWhitespace (c : Char) : Bool :=
  c = ' ' ∨ c = '\t' ∨ c = '\n' ∨ c = '\r' ∨ c = '\x0b' ∨ c = '\x0c'

/-- A character matched by the identifier alternative `[^\s()λ.]+` of the
source regex: anything but whitespace, parentheses, the dot and `λ`. -/
def identChar (c : Char) : Bool :=
  ¬ (pyWhitespace c ∨ c = '(' ∨ c = ')' ∨ c = '.' ∨ c = 'λ')

/-- The scan of `re.finditer(r'λ|[().]|[^\s()λ.]+', expression)` in `tokenize`:
left to right, first alternative wins, the identifier alternative is a maximal
run; whitespace starts no match and is skipped. -/
def tokenize_go (cs : List Char) (pos : Nat) : List Token :=
  match cs with
  | [] => []
  | c :: rest =>
      if c = 'λ' ∨ c = '(' ∨ c = ')' ∨ c = '.' then
        (String.mk [c], pos, pos + 1) :: tokenize_go rest (pos + 1)
      else if pyWhitespace c then
        tokenize_go rest (pos + 1)
      else
        let run := rest.takeWhile identChar
        (String.mk (c :: run), pos, pos + 1 + run.length) ::
          tokenize_go (rest.drop run.length) (pos + 1 + run.length)
termination_by cs.length
decreasing_by
  · simp
  · simp
  · simp [List.length_drop]; omega

/-- `tokenize(expression)` from the source. -/
def tokenize (expression : String) : List Token :=
  tokenize_go expression.data 0

/-- The four `SyntaxError`s raised by `parse`, each carrying the data
interpolated into its message. -/
inductive ParseErr where
  | emptyExpression : ParseErr
  | expectedParameter (pos : Nat) : ParseErr
  | expectedDot (param : String) (pos : Nat) : ParseErr
  | expectedRParen (pos : Nat) : ParseErr
deriving DecidableEq, Repr

mutual

/-- `parse_single(tokens)` from the source.  The destructive `tokens.pop(0)`
consumption becomes state passing: the result carries the unconsumed suffix,
bundled with the fact that at least one token was consumed (needed for
termination).  The `[]` branch is unreachable: both callers check that the
list is nonempty first. -/
def parse_single : (ts : List Token) →
    Except ParseErr (Expr × {r : List Token // r.length < ts.length})
  | [] => .error .emptyExpression
  | (token, start_pos, _end_pos) :: rest =>
      if token = "λ" then
        match rest with
        | [] => .error (.expectedParameter start_pos)
        | (param, _param_start, param_end) :: rest2 =>
            match rest2 with
            | [] => .error (.expectedDot param param_end)
            | (d, _, _) :: rest3 =>
                if d = "." then
                  match parse rest3 with
                  | .ok (body, ⟨r, hr⟩) =>
                      .ok (.Lambda param body, ⟨r, by simp only [List.length_cons] at hr ⊢; omega⟩)
                  | .error e => .error e
                else .error (.expectedDot param param_end)
      else if token = "(" then
        match parse rest with
        | .ok (expr, ⟨r, hr⟩) =>
            match hm : r with
            | [] => .error (.expectedRParen start_pos)
            | (t2, _, _) :: r2 =>
                if t2 = ")" then
                  .ok (expr, ⟨r2, by subst hm; simp only [List.length_cons] at hr ⊢; omega⟩)
                else .error (.expectedRParen start_pos)
        | .error e => .error e
      else
        .ok (.Var token, ⟨rest, by simp⟩)
termination_by ts => (ts.length, 0)
decreasing_by
  all_goals simp_wf
  all_goals apply Prod.Lex.left
  all_goals omega

/-- The `while tokens and tokens[0][0] not in [')', '.']` application loop at
the end of `parse`: left-folds further atoms into `App` nodes. -/
def parse_apps : (expr : Expr) → (ts : List Token) →
    Except ParseErr (Expr × {r : List Token // r.length ≤ ts.length})
  | expr, [] => .ok (expr, ⟨[], by simp⟩)
  | expr, (t, s, e) :: rest =>
      if t = ")" ∨ t = "." then
        .ok (expr, ⟨(t, s, e) :: rest, by simp⟩)
      else
        match parse_single ((t, s, e) :: rest) with
        | .ok (next_expr, ⟨r, hr⟩) =>
            match parse_apps (.App expr next_expr) r with
            | .ok (e2, ⟨r2, hr2⟩) =>
                .ok (e2, ⟨r2, by simp only [List.length_cons] at hr ⊢; omega⟩)
            | .error err => .error err
        | .error err => .error err
termination_by _expr ts => (ts.length, 1)
decreasing_by
  · apply Prod.Lex.right; omega
  · apply Prod.Lex.left; simp only [List.length_cons] at hr ⊢; omega

/-- `parse(tokens)` from the source: raise on an empty token list, parse one
atom, then the application loop. -/
def parse : (ts : List Token) →
    Except ParseErr (Expr × {r : List Token // r.length < ts.length})
  | [] => .error .emptyExpression
  | t :: rest =>
      match parse_single (t :: rest) with
      | .ok (expr, ⟨r, hr⟩) =>
          match parse_apps expr r with
          | .ok (e2, ⟨r2, hr2⟩) =>
              .ok (e2, ⟨r2, by simp only [List.length_cons] at hr ⊢; omega⟩)
          | .error e => .error e
      | .error e => .error e
termination_by ts => (ts.length, 1)
decreasing_by
  · apply Prod.Lex.right; omega
  · apply Prod.Lex.left; simp only [List.length_cons] at hr ⊢; omega

end

/-- `parse_expression(expression)` from the source: tokenize, then parse.  The
Python function returns only the expression; tokens left unconsumed by `parse`
are discarded. -/
def parse_expression (expression : String) : Except ParseErr Expr :=
  (parse (tokenize expression)).map fun r => r.1

/-- `parse_single` with the termination bound on the unconsumed suffix erased,
for stating theorems about results. -/
def parse_singleE (ts : List Token) : Except ParseErr (Expr × List Token) :=
  (parse_single ts).map fun r => (r.1, r.2.val)

/-- The application loop with the termination bound erased. -/
def parse_appsE (expr : Expr) (ts : List Token) : Except ParseErr (Expr × List Token) :=
  (parse_apps expr ts).map fun r => (r.1, r.2.val)

/-- `parse` with the termination bound erased. -/
def parseE (ts : List Token) : Except ParseErr (Expr × List Token) :=
  (parse ts).map fun r => (r.1, r.2.val)

/-- The spec's notion of normal form (glossary): an expression containing no
application whose function is an abstraction.  The source defines no such
function; this predicate states the hypothesis of the idempotence claim. -/
def is_normal_form : Expr → Bool
  | .Var _ => true
  | .Lambda _ body => is_normal_form body
  | .App func arg =>
      (match func with
       | .Lambda _ _ => false
       | _ => true) && is_normal_form func && is_normal_form arg

/-! ## Helper lemmas -/

theorem exprEq_eq_iff (a b : Expr) : exprEq a b = true ↔ a = b := by
  induction a generalizing b with
  | Var n => cases b <;> simp [exprEq]
  | Lambda p body ih => cases b <;> simp [exprEq, ih]
  | App f arg ihf iha => cases b <;> simp [exprEq, ihf, iha]

theorem exprEq_self (a : Expr) : exprEq a a = true :=
  (exprEq_eq_iff a a).mpr rfl

/-- With an empty context, one `beta_reduce` step fixes every normal form. -/
theorem beta_reduce_nil_of_normal (e : Expr) (h : is_normal_form e = true) :
    beta_reduce [] e = e := by
  induction e with
  | Var n => simp [beta_reduce, List.lookup]
  | Lambda p body ih =>
      simp only [is_normal_form] at h
      simp [beta_reduce, ih h]
  | App f a ihf iha =>
      cases f with
      | Lambda p b => simp [is_normal_form] at h
      | Var n =>
          simp only [is_normal_form, Bool.and_eq_true] at h
          simp [beta_reduce, List.lookup, iha h.2]
      | App g c =>
          simp only [is_normal_form, Bool.and_eq_true] at h
          have hf := ihf (by simpa [is_normal_form] using h.1.2)
          simp only [beta_reduce] at hf ⊢
          simp [hf, iha h.2]

theorem parse_appsE_nil (expr : Expr) : parse_appsE expr [] = .ok (expr, []) := by
  simp [parse_appsE, parse_apps, Except.map]

theorem parse_appsE_stop (expr : Expr) (t : Token) (rest : List Token)
    (h : t.1 = ")" ∨ t.1 = ".") :
    parse_appsE expr (t :: rest) = .ok (expr, t :: rest) := by
  obtain ⟨tt, ts, te⟩ := t
  rcases h with h | h <;>
    (simp only at h; subst h; simp [parse_appsE, parse_apps, Except.map])

theorem parse_appsE_fold (expr : Expr) (t : Token) (rest : List Token)
    (h1 : t.1 ≠ ")") (h2 : t.1 ≠ ".") :
    parse_appsE expr (t :: rest) =
      (parse_singleE (t :: rest)).bind fun p => parse_appsE (.App expr p.1) p.2 := by
  obtain ⟨tt, ts, te⟩ := t
  simp only at h1 h2
  rw [parse_appsE, parse_apps]
  rw [if_neg (by simp [h1, h2])]
  rcases hps : parse_single ((tt, ts, te) :: rest) with err | ⟨a, r, hr⟩
  · simp [hps, parse_singleE, Except.map, Except.bind]
  · simp only [hps, parse_singleE, Except.map, Except.bind, parse_appsE]
    rcases hpa : parse_apps (Expr.App expr a) r with err2 | ⟨e2, r2, hr2⟩ <;>
      simp [hpa, Except.map]

theorem parseE_cons (t : Token) (rest : List Token) :
    parseE (t :: rest) =
      (parse_singleE (t :: rest)).bind fun p => parse_appsE p.1 p.2 := by
  rw [parseE, parse]
  rcases hps : parse_single (t :: rest) with err | ⟨a, r, hr⟩
  · simp [hps, parse_singleE, Except.map, Except.bind]
  · simp only [hps, parse_singleE, Except.map, Except.bind, parse_appsE]
    rcases hpa : parse_apps a r with err2 | ⟨e2, r2, hr2⟩ <;> simp [hpa, Except.map]

theorem parse_singleE_var (tok : String) (s e : Nat) (rest : List Token)
    (h1 : tok ≠ "λ") (h2 : tok ≠ "(") :
    parse_singleE ((tok, s, e) :: rest) = .ok (.Var tok, rest) := by
  rw [parse_singleE, parse_single.eq_def]
  simp [h1, h2, Except.map]

theorem parse_singleE_lambda_dot (lt pt dt : Token) (rest : List Token)
    (hl : lt.1 = "λ") (hd : dt.1 = ".") :
    parse_singleE (lt :: pt :: dt :: rest) =
      (parseE rest).map fun p => (Expr.Lambda pt.1 p.1, p.2) := by
  obtain ⟨lts, ls, le⟩ := lt
  obtain ⟨pts, ps, pe⟩ := pt
  obtain ⟨dts, ds, de⟩ := dt
  simp only at hl hd; subst hl; subst hd
  rw [parse_singleE, parse_single.eq_def]
  simp only [if_pos rfl, if_pos rfl]
  rcases hp : parse rest with err | ⟨body, r, hr⟩ <;>
    simp [hp, parseE, Except.map]

theorem parse_singleE_lambda_nodot (lt pt dt : Token) (rest : List Token)
    (hl : lt.1 = "λ") (hd : dt.1 ≠ ".") :
    parse_singleE (lt :: pt :: dt :: rest) = .error (.expectedDot pt.1 pt.2.2) := by
  obtain ⟨lts, ls, le⟩ := lt
  obtain ⟨pts, ps, pe⟩ := pt
  obtain ⟨dts, ds, de⟩ := dt
  simp only at hl hd; subst hl
  rw [parse_singleE, parse_single.eq_def]
  simp [hd, Except.map]

theorem parse_singleE_lambda_end (lt pt : Token) (hl : lt.1 = "λ") :
    parse_singleE [lt, pt] = .error (.expectedDot pt.1 pt.2.2) := by
  obtain ⟨lts, ls, le⟩ := lt
  obtain ⟨pts, ps, pe⟩ := pt
  simp only at hl; subst hl
  rw [parse_singleE, parse_single.eq_def]
  simp [Except.map]

theorem parse_singleE_lambda_alone (lt : Token) (hl : lt.1 = "λ") :
    parse_singleE [lt] = .error (.expectedParameter lt.2.1) := by
  obtain ⟨lts, ls, le⟩ := lt
  simp only at hl; subst hl
  rw [parse_singleE, parse_single.eq_def]
  simp [Except.map]

/-! ## Claims -/

/-- The self-application term Omega, `(λx. x x) (λx. x x)`. -/
def omega_expr : Expr :=
  .App (.Lambda "x" (.App (.Var "x") (.Var "x")))
       (.Lambda "x" (.App (.Var "x") (.Var "x")))

/-- C1, counterexample: `interpret(parse_expression("(λx. x x) (λx. x x)"))`
does return, refuting "never returns".  One `beta_reduce` step maps Omega to a
structurally equal expression, so the loop `while expr != prev_expr` exits
after its first iteration (fuel 1 already suffices). -/
theorem claim_C1_counterexample :
    parse_expression "(λx. x x) (λx. x x)" = .ok omega_expr ∧
    interpret_fuel [] 1 omega_expr = some omega_expr := by
  constructor
  · have ht : tokenize "(λx. x x) (λx. x x)" =
        [("(", 0, 1), ("λ", 1, 2), ("x", 2, 3), (".", 3, 4), ("x", 5, 6),
         ("x", 7, 8), (")", 8, 9), ("(", 10, 11), ("λ", 11, 12), ("x", 12, 13),
         (".", 13, 14), ("x", 15, 16), ("x", 17, 18), (")", 18, 19)] := by
      simp [tokenize, tokenize_go, pyWhitespace, identChar]
    rw [parse_expression, ht]
    simp [parse, parse_single, parse_apps, Except.map, omega_expr]
  · decide

/-- C1, amended: evaluating Omega raises no error, and — contrary to the
claim — the fixed-point loop of `interpret` terminates on this input: beta
reducing Omega yields Omega itself, the structural-equality exit test fires,
and `interpret` returns Omega. -/
theorem claim_C1 :
    parse_expression "(λx. x x) (λx. x x)" = .ok omega_expr ∧
    beta_reduce [] omega_expr = omega_expr ∧
    InterpretsTo [] omega_expr omega_expr := by
  refine ⟨?_, by decide, ⟨1, by decide⟩⟩
  have ht : tokenize "(λx. x x) (λx. x x)" =
      [("(", 0, 1), ("λ", 1, 2), ("x", 2, 3), (".", 3, 4), ("x", 5, 6),
       ("x", 7, 8), (")", 8, 9), ("(", 10, 11), ("λ", 11, 12), ("x", 12, 13),
       (".", 13, 14), ("x", 15, 16), ("x", 17, 18), (")", 18, 19)] := by
    simp [tokenize, tokenize_go, pyWhitespace, identChar]
  rw [parse_expression, ht]
  simp [parse, parse_single, parse_apps, Except.map, omega_expr]

/-- C2, counterexample: with `x` bound in the context, `beta_reduce` expands
the occurrence of `x` in `λx. x` even though that occurrence is bound by the
enclosing abstraction of the same name, refuting "an occurrence bound by an
enclosing Abstraction of the same name is not expanded". -/
theorem claim_C2_counterexample :
    beta_reduce [("x", .Var "y")] (.Lambda "x" (.Var "x")) =
      .Lambda "x" (.Var "y") := by decide

/-- C2, amended: `beta_reduce` replaces a `Var` by its context entry verbatim
whenever its name is in the context — with no free-occurrence check, so an
occurrence bound by an enclosing same-named `Lambda` is expanded too — and the
inserted expression is not recursively expanded within the same step (the
entry is returned as stored, even if it itself mentions context names). -/
theorem claim_C2 (ctx : Ctx) (n : String) (e : Expr)
    (h : ctx.lookup n = some e) :
    beta_reduce ctx (.Var n) = e ∧
    ∀ p : String, beta_reduce ctx (.Lambda p (.Var n)) = .Lambda p e := by
  refine ⟨?_, fun p => ?_⟩ <;> simp [beta_reduce, h]

theorem claim_C2_witness :
    beta_reduce [("x", Expr.Var "y"), ("y", Expr.Var "z")] (.Var "x") =
      .Var "y" ∧
    beta_reduce [("x", Expr.Var "y"), ("y", Expr.Var "z")]
      (.Lambda "x" (.Var "x")) = .Lambda "x" (.Var "y") := by
  have h := claim_C2 [("x", Expr.Var "y"), ("y", Expr.Var "z")] "x"
    (Expr.Var "y") (by decide)
  exact ⟨h.1, h.2 "x"⟩

/-- C3, counterexample: expanding the free `F` inside `λx. F`, where the
context stores `F = λx. x`, inserts the entry verbatim: the inserted binder
`x` collides with the name `x` in scope at the insertion point and is *not*
renamed, refuting the claimed alpha-conversion on named expansion. -/
theorem claim_C3_counterexample :
    beta_reduce [("F", .Lambda "x" (.Var "x"))] (.Lambda "x" (.Var "F")) =
      .Lambda "x" (.Lambda "x" (.Var "x")) := by decide

/-- C3, amended: the reduction step performs no alpha-conversion on
named-binding expansion: the context entry is inserted verbatim under any
enclosing binder, colliding names included.  (`substitute_named` and
`alpha_rename` exist in the source but are never invoked by `beta_reduce` or
anything else.) -/
theorem claim_C3 (ctx : Ctx) (n p : String) (e : Expr)
    (h : ctx.lookup n = some e) :
    beta_reduce ctx (.Lambda p (.Var n)) = .Lambda p e := by
  simp [beta_reduce, h]

theorem claim_C3_witness :
    beta_reduce [("F", Expr.Lambda "x" (Expr.Var "x"))]
      (.Lambda "z" (.Var "F")) = .Lambda "z" (.Lambda "x" (.Var "x")) :=
  claim_C3 _ "F" "z" _ (by decide)

/-- C4: with an empty binding context,
`interpret(parse_expression("(λx. x) a"))` returns `Variable "a"`. -/
theorem claim_C4 :
    parse_expression "(λx. x) a" =
      .ok (.App (.Lambda "x" (.Var "x")) (.Var "a")) ∧
    InterpretsTo [] (.App (.Lambda "x" (.Var "x")) (.Var "a")) (.Var "a") := by
  constructor
  · have ht : tokenize "(λx. x) a" =
        [("(", 0, 1), ("λ", 1, 2), ("x", 2, 3), (".", 3, 4), ("x", 5, 6),
         (")", 6, 7), ("a", 8, 9)] := by
      simp [tokenize, tokenize_go, pyWhitespace, identChar]
    rw [parse_expression, ht]
    simp [parse, parse_single, parse_apps, Except.map]
  · exact ⟨2, by decide⟩

/-- C5: `parse(tokenize("a b c"))` is the left-associated
`App(App(Var a, Var b), Var c)`; in general, `parse` parses one atom and then
left-folds each following atom into an `App` until the next token is `)`,
`.`, or the input ends. -/
theorem claim_C5 :
    parse_expression "a b c" =
      .ok (.App (.App (.Var "a") (.Var "b")) (.Var "c")) ∧
    (∀ (t : Token) (rest : List Token),
        parseE (t :: rest) =
          (parse_singleE (t :: rest)).bind fun p => parse_appsE p.1 p.2) ∧
    (∀ expr : Expr, parse_appsE expr [] = .ok (expr, [])) ∧
    (∀ (expr : Expr) (t : Token) (rest : List Token), t.1 = ")" ∨ t.1 = "." →
        parse_appsE expr (t :: rest) = .ok (expr, t :: rest)) ∧
    (∀ (expr : Expr) (t : Token) (rest : List Token), t.1 ≠ ")" → t.1 ≠ "." →
        parse_appsE expr (t :: rest) =
          (parse_singleE (t :: rest)).bind fun p =>
            parse_appsE (.App expr p.1) p.2) := by
  refine ⟨?_, parseE_cons, parse_appsE_nil, parse_appsE_stop, parse_appsE_fold⟩
  have ht : tokenize "a b c" = [("a", 0, 1), ("b", 2, 3), ("c", 4, 5)] := by
    simp [tokenize, tokenize_go, pyWhitespace, identChar]
  rw [parse_expression, ht]
  simp [parse, parse_single, parse_apps, Except.map]

theorem claim_C5_witness :
    parse_appsE (Expr.Var "a") [("b", 2, 3)] =
      .ok (.App (.Var "a") (.Var "b"), []) := by
  have h := claim_C5.2.2.2.2 (Expr.Var "a") ("b", 2, 3) []
    (by decide) (by decide)
  rw [h]
  simp [parse_singleE, parse_single, parse_appsE, parse_apps,
        Except.map, Except.bind]

/-- C6: after `define("I", parse("λx. x"))` on an otherwise empty context,
`interpret(parse("I y"))` returns `Variable "y"`. -/
theorem claim_C6 :
    parse_expression "λx. x" = .ok (.Lambda "x" (.Var "x")) ∧
    parse_expression "I y" = .ok (.App (.Var "I") (.Var "y")) ∧
    InterpretsTo (add_to_context "I" (.Lambda "x" (.Var "x")) [])
      (.App (.Var "I") (.Var "y")) (.Var "y") := by
  refine ⟨?_, ?_, ⟨3, by decide⟩⟩
  · have ht : tokenize "λx. x" =
        [("λ", 0, 1), ("x", 1, 2), (".", 2, 3), ("x", 4, 5)] := by
      simp [tokenize, tokenize_go, pyWhitespace, identChar]
    rw [parse_expression, ht]
    simp [parse, parse_single, parse_apps, Except.map]
  · have ht : tokenize "I y" = [("I", 0, 1), ("y", 2, 3)] := by
      simp [tokenize, tokenize_go, pyWhitespace, identChar]
    rw [parse_expression, ht]
    simp [parse, parse_single, parse_apps, Except.map]

/-- C7: `parse_expression` fails with the respective `ParseError` on `"λx"`
(parameter not followed by `.`), `"(a"` (missing `)`), `""` (empty input),
and `"λ"` (`λ` not followed by a parameter token). -/
theorem claim_C7 :
    parse_expression "λx" = .error (.expectedDot "x" 2) ∧
    parse_expression "(a" = .error (.expectedRParen 0) ∧
    parse_expression "" = .error .emptyExpression ∧
    parse_expression "λ" = .error (.expectedParameter 0) := by
  refine ⟨?_, ?_, ?_, ?_⟩
  · have ht : tokenize "λx" = [("λ", 0, 1), ("x", 1, 2)] := by
      simp [tokenize, tokenize_go, pyWhitespace, identChar]
    rw [parse_expression, ht]
    simp [parse, parse_single, parse_apps, Except.map]
  · have ht : tokenize "(a" = [("(", 0, 1), ("a", 1, 2)] := by
      simp [tokenize, tokenize_go, pyWhitespace, identChar]
    rw [parse_expression, ht]
    simp [parse, parse_single, parse_apps, Except.map]
  · have ht : tokenize "" = ([] : List Token) := by
      simp [tokenize, tokenize_go]
    rw [parse_expression, ht]
    simp [parse, Except.map]
  · have ht : tokenize "λ" = [("λ", 0, 1)] := by
      simp [tokenize, tokenize_go, pyWhitespace, identChar]
    rw [parse_expression, ht]
    simp [parse, parse_single, parse_apps, Except.map]

/-- C8: with the binding context in its start-of-process state (empty), an
expression in normal form — no application-of-abstraction redex — is returned
unchanged by `interpret`: one `beta_reduce` step fixes it and the loop exits. -/
theorem claim_C8 (e : Expr) (h : is_normal_form e = true) :
    InterpretsTo [] e e := by
  refine ⟨1, ?_⟩
  have hb := beta_reduce_nil_of_normal e h
  show (if exprEq (beta_reduce [] e) e then some e
        else interpret_fuel [] 0 (beta_reduce [] e)) = some e
  rw [hb, exprEq_self]
  simp

theorem claim_C8_witness :
    is_normal_form (.Lambda "x" (.App (.Var "x") (.Var "y"))) = true ∧
    InterpretsTo [] (.Lambda "x" (.App (.Var "x") (.Var "y")))
      (.Lambda "x" (.App (.Var "x") (.Var "y"))) :=
  ⟨by decide, claim_C8 _ (by decide)⟩

/-- C9: the `__eq__` methods implement literal structural equality — same
variant, textually identical names, recursively equal subterms — and in
particular `λx. x` and `λy. y` are unequal (no alpha-equivalence). -/
theorem claim_C9 :
    (∀ n m : String, exprEq (.Var n) (.Var m) = true ↔ n = m) ∧
    (∀ (p : String) (b : Expr) (q : String) (c : Expr),
        exprEq (.Lambda p b) (.Lambda q c) = true ↔ p = q ∧ b = c) ∧
    (∀ f a g b : Expr, exprEq (.App f a) (.App g b) = true ↔ f = g ∧ a = b) ∧
    (∀ a b : Expr, exprEq a b = true ↔ a = b) ∧
    exprEq (.Lambda "x" (.Var "x")) (.Lambda "y" (.Var "y")) = false := by
  refine ⟨?_, ?_, ?_, exprEq_eq_iff, by decide⟩
  · intro n m; simp [exprEq_eq_iff]
  · intro p b q c; simp [exprEq_eq_iff]
  · intro f a g b; simp [exprEq_eq_iff]

theorem claim_C9_witness :
    exprEq (Expr.Var "a") (Expr.Var "a") = true :=
  (claim_C9.1 "a" "a").mpr rfl

/-- C10: the parser does not validate the lambda parameter token: whenever
the first token is `λ` and at least one token follows, that following token —
whatever its text, structural tokens included — is taken verbatim as the
parameter name, and the parse proceeds solely by what comes after it; in
particular `parse_expression("λλ.x")` succeeds with parameter name `"λ"`. -/
theorem claim_C10 :
    (∀ (lt pt : Token) (rest : List Token), lt.1 = "λ" →
        parse_singleE (lt :: pt :: rest) =
          match rest with
          | [] => .error (.expectedDot pt.1 pt.2.2)
          | dt :: rest2 =>
              if dt.1 = "." then
                (parseE rest2).map fun p => (Expr.Lambda pt.1 p.1, p.2)
              else .error (.expectedDot pt.1 pt.2.2)) ∧
    parse_expression "λλ.x" = .ok (.Lambda "λ" (.Var "x")) := by
  constructor
  · intro lt pt rest hl
    cases rest with
    | nil => exact parse_singleE_lambda_end lt pt hl
    | cons dt rest2 =>
        show parse_singleE (lt :: pt :: dt :: rest2) =
          if dt.1 = "." then
            (parseE rest2).map fun p => (Expr.Lambda pt.1 p.1, p.2)
          else .error (.expectedDot pt.1 pt.2.2)
        by_cases hd : dt.1 = "."
        · rw [if_pos hd]
          exact parse_singleE_lambda_dot lt pt dt rest2 hl hd
        · rw [if_neg hd]
          exact parse_singleE_lambda_nodot lt pt dt rest2 hl hd
  · have ht : tokenize "λλ.x" =
        [("λ", 0, 1), ("λ", 1, 2), (".", 2, 3), ("x", 3, 4)] := by
      simp [tokenize, tokenize_go, pyWhitespace, identChar]
    rw [parse_expression, ht]
    simp [parse, parse_single, parse_apps, Except.map]

theorem claim_C10_witness :
    parse_singleE [("λ", 0, 1), (")", 1, 2), (".", 2, 3), ("x", 3, 4)] =
      .ok (.Lambda ")" (.Var "x"), ([] : List Token)) := by
  have h := claim_C10.1 ("λ", 0, 1) (")", 1, 2) [(".", 2, 3), ("x", 3, 4)] rfl
  rw [h]
  simp [parseE, parse, parse_single, parse_apps, Except.map]

end LC
